import Mathlib

/-!
Verification development for the common-data-structures repository.

Each JavaScript data structure that the claims refer to is shallowly
embedded as pure Lean definitions operating on explicit state:

* `BinaryMinHeap`: the backing array `items` becomes a `List Int`; the
  iterative sift loops become fuel-indexed recursions (the fuel bound
  `l.length` dominates the number of loop iterations, so the fuel case
  is never hit on the executions the source performs).
* `BinarySearchTree`: an inductive binary tree; the iterative descent
  loops become structural recursions along the same branch decisions.
* `GenericTree`: an inductive rose tree with the queue-based
  breadth-first search made explicit (the queue is a `List`, dequeue at
  the head, enqueue at the tail, exactly as the repository's `Queue`).
* `Graph`: vertices live in an allocation arena (`store`) addressed by
  stable ids, mirroring JavaScript object references; `nodes` is the
  `this.nodes` array holding ids.  Thrown errors become `Except.error`.
* `Trie`: nodes carry an association list of children keyed by
  character (JavaScript object properties: updating an existing key
  keeps its position, a new key is appended) plus the terminating flag.
* `DoublyLinkedList`: nodes live in an arena; `prev`/`next` hold ids.
  A remove that throws a TypeError is modelled by a Boolean flag next
  to the state the mutated object is left in.
-/

namespace BinaryMinHeap

/-- Swaps in place the items at the given indexes (`#swapItemsAt`). -/
def swapItemsAt (l : List Int) (i j : Nat) : List Int :=
  (l.set i (l.getD j 0)).set j (l.getD i 0)

/-- Loop of `#bubbleUp`, rebalancing from the given position up.  In the
source, `hasParent index` is `Math.floor((index - 1) / 2) >= 0`, which for
a JavaScript number holds exactly when `index >= 1`; the guard compares the
parent with the current item.  The fuel argument bounds the iteration
count; `index` strictly decreases, so fuel `index + 1` is always enough. -/
def bubbleUpFuel : Nat → List Int → Nat → List Int
  | 0, l, _ => l
  | fuel + 1, l, index =>
    if 1 ≤ index ∧ l.getD index 0 < l.getD ((index - 1) / 2) 0 then
      bubbleUpFuel fuel (swapItemsAt l ((index - 1) / 2) index) ((index - 1) / 2)
    else l

/-- Rebalances the heap from the last element up (`#bubbleUp`). -/
def bubbleUp (l : List Int) : List Int :=
  bubbleUpFuel l.length l (l.length - 1)

/-- Loop of `#bubbleDown`.  It runs while the element at `index` has a left
child; the smaller child is the right one only when it exists and is
strictly smaller than the left one.  The break condition is transcribed
exactly as written in the source: `this.items[index] < indexOfASmallerChild`
compares the stored element with the child's INDEX, not with the child's
value.  The index strictly increases while staying below `l.length`, so
fuel `l.length` dominates the number of iterations. -/
def bubbleDownFuel : Nat → List Int → Nat → List Int
  | 0, l, _ => l
  | fuel + 1, l, index =>
    if 2 * index + 1 < l.length then
      let indexOfASmallerChild :=
        if 2 * index + 2 < l.length ∧
            l.getD (2 * index + 2) 0 < l.getD (2 * index + 1) 0 then
          2 * index + 2
        else 2 * index + 1
      if l.getD index 0 < (indexOfASmallerChild : Int) then l
      else bubbleDownFuel fuel (swapItemsAt l index indexOfASmallerChild)
        indexOfASmallerChild
    else l

/-- Rebalances the heap from the first element down (`#bubbleDown`). -/
def bubbleDown (l : List Int) : List Int :=
  bubbleDownFuel l.length l 0

/-- Inserts a new item at the end of the heap, then rebalances
(`insert`). -/
def insert (l : List Int) (item : Int) : List Int :=
  bubbleUp (l ++ [item])

/-- Extracts the first item (`extractMin`).  `this.items[0] = this.items.pop()`
is transcribed with JavaScript array semantics: `pop` removes and returns the
last element, and assigning to index 0 of the resulting array overwrites its
first element when it is non-empty and appends the element when the array
became empty (which happens exactly when the heap held a single item). -/
def extractMin (l : List Int) : Option Int × List Int :=
  match l with
  | [] => (none, [])
  | x :: xs =>
    let last := (x :: xs).getLast (List.cons_ne_nil x xs)
    let l' :=
      match (x :: xs).dropLast with
      | [] => [last]
      | y :: ys => (y :: ys).set 0 last
    (some x, bubbleDown l')

/-- Builds a heap by a sequence of `insert` calls on an initially empty
heap. -/
def buildHeap (vs : List Int) : List Int :=
  vs.foldl insert []

/-- Binary min-heap invariant of the backing array: every non-leaf index
`i` satisfies `items[i] ≤ items[2i+1]` and, when index `2i+2` exists,
`items[i] ≤ items[2i+2]`. -/
def heapInvariant (l : List Int) : Prop :=
  ∀ i < l.length,
    (2 * i + 1 < l.length → l.getD i 0 ≤ l.getD (2 * i + 1) 0) ∧
    (2 * i + 2 < l.length → l.getD i 0 ≤ l.getD (2 * i + 2) 0)

instance heapInvariant_decidable (l : List Int) : Decidable (heapInvariant l) :=
  Nat.decidableBallLT _ _

end BinaryMinHeap

namespace BinarySearchTree

/-- Binary tree shape used by both `BinarySearchTree.js` variants: a node
owns a value, a `leftBranch` and a `rightBranch` (null = `nil`). -/
inductive BST where
  | nil : BST
  | node (value : Int) (left : BST) (right : BST) : BST
deriving Repr, DecidableEq

/-- Value of a possibly-null node, as read by the optional chaining
`traversalNode.leftBranch?.value` in the source. -/
def valueOf : BST → Option Int
  | .nil => none
  | .node w _ _ => some w

/-- Insertion (`insert` plus `#getInsertionPoint`): descend going left when
`value <= current.value`, right otherwise, until the chosen branch is null,
and attach the new node there.  On the empty tree the new node becomes the
root. -/
def bstInsert : BST → Int → BST
  | .nil, v => .node v .nil .nil
  | .node w l r, v =>
    if v ≤ w then
      match l with
      | .nil => .node w (.node v .nil .nil) r
      | .node a b c => .node w (bstInsert (.node a b c) v) r
    else
      match r with
      | .nil => .node w l (.node v .nil .nil)
      | .node a b c => .node w l (bstInsert (.node a b c) v)

/-- Builds a tree by a sequence of `insert` calls on an initially empty
tree. -/
def bstBuild (vs : List Int) : BST :=
  vs.foldl bstInsert .nil

/-- All values stored in a tree. -/
def bstVals : BST → List Int
  | .nil => []
  | .node w l r => w :: (bstVals l ++ bstVals r)

/-- Binary search tree ordering invariant: at every node, all values of the
left subtree are `≤` the node's value and all values of the right subtree
are strictly greater. -/
def bstInv : BST → Prop
  | .nil => True
  | .node w l r =>
    (∀ x ∈ bstVals l, x ≤ w) ∧ (∀ x ∈ bstVals r, w < x) ∧ bstInv l ∧ bstInv r

/-- Removal of the root-level `src/BinarySearchTree.js` variant, below the
root case (`#getRemovalPoint` plus the detach-and-return).  The loop walks
the same branch decisions as the insertion descent and stops at the parent
whose child holds the sought value; `removalNode[removalBranch] = null`
clears that branch, and the method returns `removalNode` — the PARENT node
object, after the mutation.  The pair is (updated subtree, returned node). -/
def removeAux1 : BST → Int → BST × Option BST
  | .nil, _ => (.nil, none)
  | .node w l r, v =>
    if v ≤ w then
      if valueOf l = some v then
        ((BST.node w .nil r), some (BST.node w .nil r))
      else
        let res := removeAux1 l v
        (BST.node w res.1 r, res.2)
    else
      if valueOf r = some v then
        ((BST.node w l .nil), some (BST.node w l .nil))
      else
        let res := removeAux1 r v
        (BST.node w l res.1, res.2)

/-- The `remove` method of `src/BinarySearchTree.js`: null root returns
null; a root match discards the whole tree and returns the old root;
otherwise the parent found by `#getRemovalPoint` has its branch cleared and
is itself returned. -/
def remove1 (t : BST) (v : Int) : BST × Option BST :=
  match t with
  | .nil => (.nil, none)
  | .node w l r =>
    if v = w then (.nil, some (BST.node w l r))
    else removeAux1 (BST.node w l r) v

end BinarySearchTree

namespace GenericTree

/-- Rose tree node of `Tree.js`: a value plus an ordered list of
children. -/
inductive TNode where
  | mk (value : Int) (children : List TNode) : TNode

/-- Value stored at a node. -/
def TNode.value : TNode → Int
  | .mk v _ => v

/-- Children of a node, in stored order. -/
def TNode.children : TNode → List TNode
  | .mk _ cs => cs

mutual

/-- Number of nodes of a tree. -/
def sizeT : TNode → Nat
  | .mk _ cs => 1 + sizeL cs

/-- Total number of nodes of a list of trees. -/
def sizeL : List TNode → Nat
  | [] => 0
  | n :: rest => sizeT n + sizeL rest

end

/-- Loop of `#getParentOf`: dequeue a node; if one of its children holds
the sought value return the node, otherwise enqueue all children (the
source enqueues the children scanned before a match, but then returns
without ever reading the queue again, so only the all-or-nothing cases are
observable).  The queue is FIFO: dequeue at the head, enqueue at the tail.
Each iteration removes one node from the total size of the queued trees,
so fuel `sizeL queue` dominates the iteration count. -/
def bfsParentFuel (v : Int) : Nat → List TNode → Option TNode
  | 0, _ => none
  | _, [] => none
  | fuel + 1, n :: rest =>
    if n.children.any (fun c => c.value == v) then some n
    else bfsParentFuel v fuel (rest ++ n.children)

/-- Breadth-first search for the parent of the first node holding `v`,
started from the given queue. -/
def bfsParent (v : Int) (q : List TNode) : Option TNode :=
  bfsParentFuel v (sizeL q) q

/-- The `#getParentOf` method: null root and a root match both return
null, otherwise the queue-based search starts from the root. -/
def getParentOf (root : TNode) (v : Int) : Option TNode :=
  if root.value = v then none else bfsParent v [root]

/-- JavaScript `Array.prototype.findIndex`: index of the first element
satisfying the callback, `-1` if none does. -/
def jsFindIndex (p : TNode → Bool) : List TNode → Int
  | [] => -1
  | c :: rest =>
    if p c then 0
    else
      let r := jsFindIndex p rest
      if r < 0 then -1 else r + 1

/-- The list of elements removed by `Array.prototype.splice(start, 1)`:
a negative `start` counts from the end (clamped at 0), a too-large
`start` removes nothing. -/
def jsSpliceRemovedOne (l : List TNode) (start : Int) : List TNode :=
  let s : Nat := if start < 0 then (l.length : Int).toNat - (-start).toNat
    else start.toNat
  (l.drop s).take 1

/-- Return value of `Tree.remove`: null, a node object (the root case), or
an array of nodes (the value returned by `splice`). -/
inductive RemoveResult where
  | nullResult : RemoveResult
  | nodeResult (n : TNode) : RemoveResult
  | listResult (l : List TNode) : RemoveResult

/-- Return value of the `remove` method of `Tree.js`: null root gives
null; a root match clears the tree and returns the root node itself;
otherwise the parent found by `#getParentOf` has the first child holding
the value spliced out of its child array, and the ARRAY returned by
`splice` is what `remove` returns. -/
def treeRemove (root? : Option TNode) (v : Int) : RemoveResult :=
  match root? with
  | none => .nullResult
  | some root =>
    if root.value = v then .nodeResult root
    else
      match getParentOf root v with
      | none => .nullResult
      | some parent =>
        let childIndex := jsFindIndex (fun c => c.value == v) parent.children
        .listResult (jsSpliceRemovedOne parent.children childIndex)

end GenericTree

namespace DirectedGraph

/-- A graph vertex (`Node` of `Graph.js`): a value and the adjacency
array.  Adjacency entries are JavaScript object references, modelled as
stable allocation ids into the store. -/
structure Vertex where
  value : Int
  adjacent : List Nat
deriving Repr, DecidableEq

instance : Inhabited Vertex := ⟨⟨0, []⟩⟩

/-- Graph state: `store` is the allocation arena of every `Node` object
ever created (indexed by allocation id, never shrunk — JavaScript objects
survive as long as something references them), while `nodes` is the
`this.nodes` array, holding references (ids) and mutated by
`addVertex`/`removeVertex`. -/
structure Graph where
  store : List Vertex
  nodes : List Nat
deriving Repr, DecidableEq

/-- The empty graph produced by the constructor. -/
def emptyGraph : Graph := ⟨[], []⟩

/-- Vertex data behind an id. -/
def vertexAt (g : Graph) (id : Nat) : Vertex :=
  g.store.getD id default

/-- The `addVertex` method: pushes a freshly allocated node. -/
def addVertex (g : Graph) (v : Int) : Graph :=
  ⟨g.store ++ [⟨v, []⟩], g.nodes ++ [g.store.length]⟩

/-- The `get` method: first node in `this.nodes` order whose value equals
the sought one (returns the reference, here its id). -/
def getVertex (g : Graph) (v : Int) : Option Nat :=
  g.nodes.find? (fun id => (vertexAt g id).value == v)

/-- Replaces the adjacency array of the vertex behind `id`. -/
def setAdjacent (g : Graph) (id : Nat) (adj : List Nat) : Graph :=
  ⟨g.store.set id { vertexAt g id with adjacent := adj }, g.nodes⟩

/-- The `addEdge` method: looks both endpoints up by value, throws when
either is absent, then pushes a reference to the destination node into the
source node's adjacency array. -/
def addEdge (g : Graph) (source destination : Int) : Except String Graph :=
  match getVertex g source, getVertex g destination with
  | none, _ => .error "Source Node is not found."
  | some _, none => .error "Destination Node is not found."
  | some sid, some did =>
    .ok (setAdjacent g sid ((vertexAt g sid).adjacent ++ [did]))

/-- Loop of `hasPathBFS`, transcribed with the defect in the source kept
intact: the check `if (currentNode.value = destinationNode.value)` is an
ASSIGNMENT, so it first overwrites the dequeued node's value with the
destination's current value and then branches on the truthiness of that
value (for numbers: non-zero).  Only afterwards is the visited list
consulted, using the just-overwritten value.  `none` means the fuel ran
out (never on the executions considered here). -/
def bfsLoop (destId : Nat) : Nat → Graph → List Nat → List Int → Option Bool
  | 0, _, _, _ => none
  | _, _, [], _ => some false
  | fuel + 1, g, cid :: rest, visited =>
    let dval := (vertexAt g destId).value
    let g' : Graph := ⟨g.store.set cid { vertexAt g cid with value := dval }, g.nodes⟩
    if dval ≠ 0 then some true
    else if visited.contains dval then bfsLoop destId fuel g' rest visited
    else bfsLoop destId fuel g' (rest ++ (vertexAt g' cid).adjacent)
      (visited ++ [dval])

/-- The `hasPathBFS` method: looks both endpoints up, throws when either
is absent, then runs the queue loop starting from the source node. -/
def hasPathBFS (g : Graph) (source destination : Int) (fuel : Nat) :
    Except String (Option Bool) :=
  match getVertex g source, getVertex g destination with
  | none, _ => .error "Source Node is not found."
  | some _, none => .error "Destination Node is not found."
  | some sid, some did => .ok (bfsLoop did fuel g [sid] [])

/-- JavaScript strict equality between an adjacency entry (a `Node`
object reference) and the primitive `destination` value passed to
`removeEdge`'s `indexOf`: an object is never `===` a number, so the
comparison is always false. -/
def refEqPrim (_ref : Nat) (_v : Int) : Bool := false

/-- The `indexOf(destination)` call inside `removeEdge`: first index whose
entry is `===` the raw destination value; since entries are `Node` objects
this is always `-1`. -/
def jsIndexOfDest (adj : List Nat) (destination : Int) : Int :=
  match adj.findIdx? (fun r => refEqPrim r destination) with
  | some i => (i : Int)
  | none => -1

/-- JavaScript `splice(start, 1)` on an id array, returning the remaining
array: a negative `start` counts from the end (clamped at 0). -/
def jsSpliceOutOne (l : List Nat) (start : Int) : List Nat :=
  let s : Nat := if start < 0 then (l.length : Int).toNat - (-start).toNat
    else start.toNat
  l.take s ++ l.drop (s + 1)

/-- The `removeEdge` method: throws when the source value is absent; scans
the source's adjacency array for the first entry whose value equals the
destination, and when one exists splices at `indexOf(destination)` — which
is always `-1`, so the LAST adjacency entry is removed.  Returns `some`
updated graph when an entry matched (the source returns `this`) and `none`
with the graph untouched otherwise (the source returns null). -/
def removeEdge (g : Graph) (source destination : Int) :
    Except String (Option Graph × Graph) :=
  match getVertex g source with
  | none => .error "Source Node is not found."
  | some sid =>
    let adjacentNodes := (vertexAt g sid).adjacent
    if adjacentNodes.any (fun r => (vertexAt g r).value == destination) then
      let currentNodeIndex := jsIndexOfDest adjacentNodes destination
      let g' := setAdjacent g sid (jsSpliceOutOne adjacentNodes currentNodeIndex)
      .ok (some g', g')
    else .ok (none, g)

/-- The `removeVertex` method: finds the first node holding the value,
splices it out of `this.nodes`, then calls `removeEdge(node.value,
removedValue)` once for every remaining node.  The Boolean records whether
a vertex was removed (the source returns the spliced array or null). -/
def removeVertex (g : Graph) (v : Int) : Except String (Bool × Graph) :=
  match getVertex g v with
  | none => .ok (false, g)
  | some sid =>
    let idx := g.nodes.findIdx (fun id => id == sid)
    let removedValue := (vertexAt g sid).value
    let g1 : Graph := ⟨g.store, g.nodes.eraseIdx idx⟩
    let step := fun (acc : Graph) (id : Nat) =>
      (removeEdge acc (vertexAt acc id).value removedValue).map (·.2)
    (g1.nodes.foldlM step g1).map (fun g2 => (true, g2))

/-- Adjacency of the first vertex holding `v`, as a list of the VALUES of
the referenced node objects (observable shape of the dangling-reference
question). -/
def adjacencyValues (g : Graph) (v : Int) : Option (List Int) :=
  (getVertex g v).map (fun id =>
    (vertexAt g id).adjacent.map (fun r => (vertexAt g r).value))

end DirectedGraph

namespace TrieModel

/-- Trie node: its character, the children mapping (an association list
keyed by character: JavaScript object properties keep the position of an
existing key on update and append a fresh key at the end), and the
terminating flag. -/
inductive TrieNode where
  | mk (character : Char) (children : List (Char × TrieNode))
      (isTerminating : Bool) : TrieNode

/-- Character stored at a node. -/
def TrieNode.character : TrieNode → Char
  | .mk c _ _ => c

/-- Children mapping of a node. -/
def TrieNode.children : TrieNode → List (Char × TrieNode)
  | .mk _ cs _ => cs

/-- Terminating flag of a node. -/
def TrieNode.isTerminating : TrieNode → Bool
  | .mk _ _ t => t

/-- The root node built by the `Trie` constructor. -/
def emptyRoot : TrieNode := .mk '*' [] false

/-- The `getChild` method: child behind the given character, null when
absent. -/
def getChild (n : TrieNode) (c : Char) : Option TrieNode :=
  match n.children.find? (fun p => p.1 == c) with
  | some p => some p.2
  | none => none

/-- Writes `currentNode.children[character] = child`: replaces the value
behind an existing key in place, appends a fresh key at the end. -/
def setChildEntries (l : List (Char × TrieNode)) (c : Char) (child : TrieNode) :
    List (Char × TrieNode) :=
  match l with
  | [] => [(c, child)]
  | (c', m) :: rest =>
    if c' = c then (c, child) :: rest
    else (c', m) :: setChildEntries rest c child

/-- Node with the child behind `c` written. -/
def setChild (n : TrieNode) (c : Char) (child : TrieNode) : TrieNode :=
  .mk n.character (setChildEntries n.children c child) n.isTerminating

/-- The `hasChildren` method. -/
def hasChildren (n : TrieNode) : Bool :=
  !n.children.isEmpty

/-- Sets the terminating flag (`setAsTerminating`). -/
def setAsTerminating (n : TrieNode) : TrieNode :=
  .mk n.character n.children true

/-- Clears the terminating flag (`unsetAsTerminating`). -/
def unsetAsTerminating (n : TrieNode) : TrieNode :=
  .mk n.character n.children false

/-- The `removeChild` method: throws when the child is absent, still has
children, or is itself terminating; otherwise deletes the key. -/
def removeChild (n : TrieNode) (c : Char) : Except String TrieNode :=
  match getChild n c with
  | none =>
    .error "The given Node cannot be removed because it does not exist."
  | some child =>
    if hasChildren child then
      .error "The given Node cannot be removed because it is a part of a longer sequence."
    else if child.isTerminating then
      .error "The given Node cannot be removed because it terminates a sequence."
    else
      .ok (TrieNode.mk n.character (n.children.filter (fun p => p.1 ≠ c))
        n.isTerminating)

/-- The `addWord` method, recursing over the remaining characters:
descends creating missing children and marks the final node as
terminating. -/
def addWordAux : TrieNode → List Char → TrieNode
  | n, [] => setAsTerminating n
  | n, c :: rest =>
    let child := match getChild n c with
      | some ch => ch
      | none => TrieNode.mk c [] false
    setChild n c (addWordAux child rest)

/-- The `addWord` method on the root. -/
def addWord (root : TrieNode) (w : List Char) : TrieNode :=
  addWordAux root w

/-- The `contains` method: descend by character; false as soon as a child
is missing; at the end, the terminating flag for exact mode and true for
the default mode. -/
def containsAux : TrieNode → List Char → Bool → Bool
  | n, [], isExactMatch => if isExactMatch then n.isTerminating else true
  | n, c :: rest, isExactMatch =>
    match getChild n c with
    | none => false
    | some child => containsAux child rest isExactMatch

/-- The `contains` method on the root. -/
def contains (root : TrieNode) (w : List Char) (isExactMatch : Bool) : Bool :=
  containsAux root w isExactMatch

/-- The recursive `#removeWord` helper.  The pair is (outcome, state of
`currentNode` after the call): a thrown error propagates as
`Except.error`, but mutations already performed on the node object
survive, so the state is returned in both cases.  The Boolean is the
source's `isRemovalCompleted`-style return value. -/
def removeWordAux : List Char → TrieNode → Except String Bool × TrieNode
  | [], node =>
    (.error "The given word cannot be removed because it does not exist.", node)
  | c :: rest, node =>
    match getChild node c with
    | none =>
      (.error "The given word cannot be removed because it does not exist.", node)
    | some child =>
      match rest with
      | r :: rs =>
        let recState := removeWordAux (r :: rs) child
        let node' := setChild node c recState.2
        match recState.1 with
        | .error e => (.error e, node')
        | .ok isRemovalCompleted =>
          if recState.2.isTerminating || isRemovalCompleted then
            (.ok true, node')
          else
            match removeChild node' c with
            | .ok n' => (.ok false, n')
            | .error e => (.error e, node')
      | [] =>
        if !child.isTerminating then
          (.error "The given word cannot be removed because it has not matched exactly.", node)
        else
          let child' := unsetAsTerminating child
          let node' := setChild node c child'
          if hasChildren child' then (.ok true, node')
          else
            match removeChild node' c with
            | .ok n' => (.ok false, n')
            | .error e => (.error e, node')

/-- Outcome of the top-level `removeWord` method: null for the empty
word, the trie itself on success, a thrown error otherwise. -/
inductive RemoveWordResult where
  | nullResult : RemoveWordResult
  | trieResult : RemoveWordResult
  | errorResult (msg : String) : RemoveWordResult

/-- True exactly on the thrown-error outcome. -/
def RemoveWordResult.isError : RemoveWordResult → Bool
  | .errorResult _ => true
  | _ => false

/-- The `removeWord` method on the root: the empty word returns null
without touching the trie; otherwise the recursive helper runs from the
root and a thrown error leaves the mutations performed so far in place. -/
def removeWord (root : TrieNode) (w : List Char) :
    RemoveWordResult × TrieNode :=
  match w with
  | [] => (.nullResult, root)
  | c :: rest =>
    match removeWordAux (c :: rest) root with
    | (.ok _, root') => (.trieResult, root')
    | (.error e, root') => (.errorResult e, root')

end TrieModel

namespace DoublyLinkedList

/-- A list node (`DoublyLinkedListNode`): the value and the `prev`/`next`
references, modelled as allocation ids (null = `none`). -/
structure DLLNode where
  value : Int
  prev : Option Nat
  next : Option Nat
deriving Repr, DecidableEq

instance : Inhabited DLLNode := ⟨⟨0, none, none⟩⟩

/-- List state: the arena of every node object ever allocated (indexed by
allocation id) and the `head` reference. -/
structure DLL where
  nodes : List DLLNode
  head : Option Nat
deriving Repr, DecidableEq

/-- The empty list produced by the constructor. -/
def emptyList : DLL := ⟨[], none⟩

/-- Node data behind an id. -/
def nodeAt (s : DLL) (i : Nat) : DLLNode :=
  s.nodes.getD i default

/-- The `insert` method: a freshly allocated node becomes the head; on a
non-empty list its `next` is the old head and the old head's `prev` is
pointed back at it. -/
def insert (s : DLL) (v : Int) : DLL :=
  let id := s.nodes.length
  match s.head with
  | none => ⟨s.nodes ++ [⟨v, none, none⟩], some id⟩
  | some h =>
    let ns := s.nodes ++ [⟨v, none, some h⟩]
    let ns := ns.set h { ns.getD h default with prev := some id }
    ⟨ns, some id⟩

/-- Loop of the `get` method: walk `next` references from the given node
until a value match or null.  Fuel bounds the walk; on every state the
operations produce, the chain is duplicate-free, so fuel `nodes.length`
is always enough. -/
def getFrom (nodes : List DLLNode) (v : Int) : Nat → Option Nat → Option Nat
  | 0, _ => none
  | _ + 1, none => none
  | fuel + 1, some i =>
    if (nodes.getD i default).value = v then some i
    else getFrom nodes v fuel (nodes.getD i default).next

/-- The `get` method: first node holding the value, scanning from the
head. -/
def get (s : DLL) (v : Int) : Option Nat :=
  getFrom s.nodes v s.nodes.length s.head

/-- The `remove` method.  The Boolean records a thrown TypeError; the
returned state is what the list object holds afterwards (mutations
performed before the throw survive).  Cases exactly as in the source:
empty list and value-not-found return the list unchanged; removing the
head sets `head` to its successor and then clears the new head's `prev` —
which dereferences null and THROWS when the removed head was the only
node; removing the tail clears the predecessor's `next`; a middle node is
spliced out in both directions. -/
def remove (s : DLL) (v : Int) : DLL × Bool :=
  match s.head with
  | none => (s, false)
  | some hd =>
    match get s v with
    | none => (s, false)
    | some nid =>
      let nd := nodeAt s nid
      if nid = hd then
        match nd.next with
        | none => (⟨s.nodes, none⟩, true)
        | some h2 =>
          (⟨s.nodes.set h2 { nodeAt s h2 with prev := none }, some h2⟩, false)
      else if nd.next = none then
        match nd.prev with
        | none => (s, true)
        | some p =>
          (⟨s.nodes.set p { nodeAt s p with next := none }, s.head⟩, false)
      else
        match nd.prev, nd.next with
        | none, _ => (s, true)
        | some _, none => (s, false)
        | some p, some sc =>
          let ns := s.nodes.set p { nodeAt s p with next := some sc }
          let ns := ns.set sc { ns.getD sc default with prev := some p }
          (⟨ns, s.head⟩, false)

/-- Walk of `next` references collecting ids, fuel-bounded. -/
def forwardIdsFrom (nodes : List DLLNode) : Nat → Option Nat → List Nat
  | 0, _ => []
  | _ + 1, none => []
  | fuel + 1, some i => i :: forwardIdsFrom nodes fuel (nodes.getD i default).next

/-- Walk of `prev` references collecting ids, fuel-bounded. -/
def backwardIdsFrom (nodes : List DLLNode) : Nat → Option Nat → List Nat
  | 0, _ => []
  | _ + 1, none => []
  | fuel + 1, some i => i :: backwardIdsFrom nodes fuel (nodes.getD i default).prev

/-- Ids reached walking forward from the head. -/
def forwardIds (s : DLL) : List Nat :=
  forwardIdsFrom s.nodes s.nodes.length s.head

/-- Values reached walking forward from the head. -/
def forwardValues (s : DLL) : List Int :=
  (forwardIds s).map (fun i => (nodeAt s i).value)

/-- Values reached walking backward (via `prev`) from the last node the
forward walk reaches. -/
def backwardValues (s : DLL) : List Int :=
  (backwardIdsFrom s.nodes s.nodes.length (forwardIds s).getLast?).map
    (fun i => (nodeAt s i).value)

/-- Expected `next` reference of the last element of a segment followed by
`rest`, with final pointer `q`. -/
def nextOf (rest : List Nat) (q : Option Nat) : Option Nat :=
  match rest with
  | [] => q
  | j :: _ => some j

/-- Pointer to the last element of `l`, or `p` when `l` is empty. -/
def endPtr (p : Option Nat) (l : List Nat) : Option Nat :=
  match l.getLast? with
  | none => p
  | some j => some j

/-- A duplicate-free doubly-linked segment: the ids in `l` are linked
consecutively by `next`, back-linked consecutively by `prev`, the first
element's `prev` is `p`, and the last element's `next` is `q`. -/
def seg (nodes : List DLLNode) (p : Option Nat) (l : List Nat)
    (q : Option Nat) : Prop :=
  match l with
  | [] => True
  | i :: rest =>
    i < nodes.length ∧ (nodes.getD i default).prev = p ∧
      (nodes.getD i default).next = nextOf rest q ∧ seg nodes (some i) rest q

/-- Representation invariant of a list state: some duplicate-free chain of
ids starts at `head` and is consistently linked in both directions. -/
def Inv (s : DLL) : Prop :=
  ∃ chain : List Nat, chain.Nodup ∧ s.head = chain.head? ∧
    seg s.nodes none chain none

/-- States reachable by sequences of `insert` and `remove` operations from
the state the constructor builds (the state a throwing `remove` leaves
behind included). -/
inductive Reachable : DLL → Prop
  | empty : Reachable emptyList
  | insert (v : Int) {s : DLL} : Reachable s → Reachable (insert s v)
  | remove (v : Int) {s : DLL} : Reachable s → Reachable (remove s v).1

end DoublyLinkedList

namespace DirectedGraph

/-- Graph of the specification's reachability scenario: vertices 1..5 and
edges 1→2, 2→3, 3→4. -/
def specGraph : Except String Graph :=
  let g0 := addVertex (addVertex (addVertex (addVertex (addVertex
    emptyGraph 1) 2) 3) 4) 5
  (addEdge g0 1 2).bind (fun g1 =>
    (addEdge g1 2 3).bind (fun g2 => addEdge g2 3 4))

/-- Graph of the dangling-reference scenario: vertices 1, 2, 3 and edges
2→1, 2→3, followed by `removeVertex(1)`. -/
def removalScript : Except String (Bool × Graph) :=
  let g0 := addVertex (addVertex (addVertex emptyGraph 1) 2) 3
  (addEdge g0 2 1).bind (fun g1 =>
    (addEdge g1 2 3).bind (fun g2 => removeVertex g2 1))

end DirectedGraph

/-- C1.  The claimed heap invariant FAILS on the code: after the insert
sequence 0, 1, 0, 2, 1 — whose result [0, 1, 0, 2, 1] is a valid min-heap —
a single `extractMin` leaves the backing array [1, 1, 0, 2], where index 0
holds 1 while its right child (index 2) holds 0.  The cause is the
`#bubbleDown` break condition `this.items[index] < indexOfASmallerChild`,
which compares the stored element against the child's INDEX instead of the
child's value. -/
theorem c1_heap_invariant_violated_after_extractMin :
    (BinaryMinHeap.extractMin (BinaryMinHeap.buildHeap [0, 1, 0, 2, 1])).2 =
      [1, 1, 0, 2] ∧
    BinaryMinHeap.heapInvariant [1, 1, 0, 2] = False := by
  exact ⟨by decide, eq_false (by decide)⟩

/-- C5.  On a heap holding a single element, `extractMin` returns that
element but does NOT shrink the heap: `this.items[0] = this.items.pop()`
pops the only element and immediately writes it back to index 0, so the
heap still holds one item instead of becoming empty. -/
theorem c5_extractMin_singleton_keeps_item :
    BinaryMinHeap.extractMin (BinaryMinHeap.buildHeap [5]) = (some 5, [5]) := by
  decide

/-- C2.  On the specification's graph (vertices 1..5, edges 1→2, 2→3,
3→4), `hasPathBFS(4, 1)` returns TRUE even though 1 is not reachable from
4: the check `if (currentNode.value = destinationNode.value)` is an
assignment, so the very first dequeued node makes the condition truthy
(the destination's value, 1, is non-zero) and the method returns true
immediately.  The claim says it must return false. -/
theorem c2_hasPathBFS_returns_true_on_unreachable :
    DirectedGraph.specGraph.bind
      (fun g => DirectedGraph.hasPathBFS g 4 1 10) = .ok (some true) := by
  rfl

/-- C6.  Dangling-reference scrubbing FAILS: with vertices 1, 2, 3 and
edges 2→1, 2→3, after `removeVertex(1)` the adjacency of vertex 2 still
holds the reference to the removed vertex 1 and has LOST the edge to 3.
`removeEdge` locates the matching entry by value but splices at
`indexOf(destination)`, which compares Node objects against the raw value
and always yields -1, removing the last entry instead of the match. -/
theorem c6_removeVertex_leaves_dangling_reference :
    DirectedGraph.removalScript.map
      (fun r => DirectedGraph.adjacencyValues r.2 2) = .ok (some [1]) := by
  rfl

/-- C3.  Removing "cat" after adding "cat" and "car" THROWS instead of
completing normally: the leaf 't' is deleted, but when the recursion
returns to the node 'a' — which still has the child 'r' — the source calls
`removeChild('a')` (its guard checks only the terminating flag of 'a' and
the recursive result, not whether 'a' still has children), and
`removeChild` throws the longer-sequence error.  The other word does
survive: `contains("car", true)` on the state the throw leaves behind is
still true. -/
theorem c3_removeWord_throws_on_shared_branch :
    (TrieModel.removeWord
      (TrieModel.addWord (TrieModel.addWord TrieModel.emptyRoot
        ['c', 'a', 't']) ['c', 'a', 'r'])
      ['c', 'a', 't']).1.isError = true ∧
    TrieModel.contains
      (TrieModel.removeWord
        (TrieModel.addWord (TrieModel.addWord TrieModel.emptyRoot
          ['c', 'a', 't']) ['c', 'a', 'r'])
        ['c', 'a', 't']).2 ['c', 'a', 'r'] true = true := by
  exact ⟨by decide, by decide⟩

/-- C4.  `remove` on a one-element list DOES signal a failure: removing
the head runs `this.head = this.head.next; this.head.prev = null`, and on
a singleton the new head is null, so reading `.prev` throws a TypeError
(the flag in the model).  The mutation performed before the throw has
already emptied the list. -/
theorem c4_remove_singleton_throws :
    (DoublyLinkedList.remove
      (DoublyLinkedList.insert DoublyLinkedList.emptyList 1) 1).2 = true ∧
    (DoublyLinkedList.remove
      (DoublyLinkedList.insert DoublyLinkedList.emptyList 1) 1).1.head = none := by
  exact ⟨by decide, by decide⟩

/-- C8.  The root-level `src/BinarySearchTree.js` variant returns the
PARENT of the detached node, not the detached node: on the tree built by
inserting 5 then 2, `remove(2)` detaches the left child but returns the
node holding 5 (with its left branch already cleared), contradicting the
claim and the method's own doc comment.  (The `src/data-structures`
variant returns the detached child.) -/
theorem c8_remove_returns_parent_not_removed_node :
    (BinarySearchTree.remove1 (BinarySearchTree.bstBuild [5, 2]) 2).2 =
      some (BinarySearchTree.BST.node 5 .nil .nil) := by
  decide

namespace BinarySearchTree

/-- Unfolding of the insertion descent at a node: the two explicit
null-branch checks of `#getInsertionPoint` coincide with recursing into
the branch. -/
theorem bstInsert_node (w : Int) (l r : BST) (v : Int) :
    bstInsert (.node w l r) v =
      if v ≤ w then .node w (bstInsert l v) r
      else .node w l (bstInsert r v) := by
  cases l <;> cases r <;> simp [bstInsert]

/-- Every value of the tree after an insertion is the inserted value or a
value that was already present. -/
theorem mem_bstVals_bstInsert {x : Int} {t : BST} {v : Int}
    (h : x ∈ bstVals (bstInsert t v)) : x = v ∨ x ∈ bstVals t := by
  induction t with
  | nil => simp [bstInsert, bstVals] at h; simp [h]
  | node w l r ihl ihr =>
    rw [bstInsert_node] at h
    by_cases hv : v ≤ w
    · rw [if_pos hv] at h
      simp only [bstVals, List.mem_cons, List.mem_append] at h ⊢
      rcases h with h | h | h
      · exact Or.inr (Or.inl h)
      · rcases ihl h with h | h
        · exact Or.inl h
        · exact Or.inr (Or.inr (Or.inl h))
      · exact Or.inr (Or.inr (Or.inr h))
    · rw [if_neg hv] at h
      simp only [bstVals, List.mem_cons, List.mem_append] at h ⊢
      rcases h with h | h | h
      · exact Or.inr (Or.inl h)
      · exact Or.inr (Or.inr (Or.inl h))
      · rcases ihr h with h | h
        · exact Or.inl h
        · exact Or.inr (Or.inr (Or.inr h))

/-- Insertion preserves the binary search tree ordering invariant. -/
theorem bstInv_bstInsert {t : BST} (h : bstInv t) (v : Int) :
    bstInv (bstInsert t v) := by
  induction t with
  | nil => simp [bstInsert, bstInv, bstVals]
  | node w l r ihl ihr =>
    obtain ⟨hl, hr, hil, hir⟩ := h
    rw [bstInsert_node]
    by_cases hv : v ≤ w
    · rw [if_pos hv]
      refine ⟨fun x hx => ?_, hr, ihl hil, hir⟩
      rcases mem_bstVals_bstInsert hx with rfl | hx
      · exact hv
      · exact hl x hx
    · rw [if_neg hv]
      refine ⟨hl, fun x hx => ?_, hil, ihr hir⟩
      rcases mem_bstVals_bstInsert hx with rfl | hx
      · exact lt_of_not_le hv
      · exact hr x hx

/-- Any sequence of insertions starting from a tree satisfying the
invariant yields a tree satisfying the invariant. -/
theorem bstInv_foldl (vs : List Int) :
    ∀ t : BST, bstInv t → bstInv (vs.foldl bstInsert t) := by
  induction vs with
  | nil => exact fun t h => h
  | cons v vs ih => exact fun t h => ih _ (bstInv_bstInsert h v)

end BinarySearchTree

/-- C7.  Binary search tree ordering invariant: after any sequence of
`insert` calls on an initially empty tree, every node has all left-subtree
values `≤` its value and all right-subtree values strictly greater; a
value equal to a node's value is routed into the left subtree (the
descent takes the left branch exactly when `value <= current.value`). -/
theorem c7_bst_insert_invariant :
    (∀ vs : List Int, BinarySearchTree.bstInv (BinarySearchTree.bstBuild vs)) ∧
    (∀ (w : Int) (l r : BinarySearchTree.BST), ∃ l',
      BinarySearchTree.bstInsert (.node w l r) w = .node w l' r) := by
  constructor
  · intro vs
    exact BinarySearchTree.bstInv_foldl vs .nil trivial
  · intro w l r
    exact ⟨BinarySearchTree.bstInsert l w,
      by rw [BinarySearchTree.bstInsert_node, if_pos le_rfl]⟩

namespace GenericTree

/-- When the queue search returns a parent, one of that parent's children
holds the sought value (the loop returns a node exactly when the child
scan finds a match). -/
theorem bfsParentFuel_children_match {v : Int} :
    ∀ (fuel : Nat) (q : List TNode) (p : TNode),
      bfsParentFuel v fuel q = some p →
      p.children.any (fun c => c.value == v) = true := by
  intro fuel
  induction fuel with
  | zero => intro q p h; simp [bfsParentFuel] at h
  | succ f ih =>
    intro q p h
    match q with
    | [] => simp [bfsParentFuel] at h
    | n :: rest =>
      rw [bfsParentFuel] at h
      by_cases hm : n.children.any (fun c => c.value == v) = true
      · rw [if_pos hm] at h
        cases h
        exact hm
      · rw [if_neg hm] at h
        exact ih _ _ h

/-- When some element satisfies the callback, `findIndex` returns the
index of the first such element, and `splice` at that index removes
exactly that element. -/
theorem jsFindIndex_of_any {p : TNode → Bool} :
    ∀ l : List TNode, l.any p = true →
      ∃ (k : Nat) (c : TNode), jsFindIndex p l = (k : Int) ∧
        (l.drop k).take 1 = [c] ∧ p c = true ∧ c ∈ l := by
  intro l
  induction l with
  | nil => intro h; simp at h
  | cons c0 rest ih =>
    intro h
    by_cases h0 : p c0 = true
    · exact ⟨0, c0, by simp [jsFindIndex, h0], by simp, h0, by simp⟩
    · have hrest : rest.any p = true := by
        simp only [List.any_cons, Bool.or_eq_true] at h
        rcases h with h | h
        · exact absurd h h0
        · exact h
      obtain ⟨k, c, hk, hdrop, hc, hmem⟩ := ih hrest
      refine ⟨k + 1, c, ?_, by simpa using hdrop, hc, by simp [hmem]⟩
      rw [jsFindIndex, if_neg h0, hk]
      have hnn : ¬ ((k : Int) < 0) := by omega
      simp only [hnn, if_false]
      norm_num

/-- Splicing one element at a non-negative index removes the element at
that index. -/
theorem jsSpliceRemovedOne_natCast (l : List TNode) (k : Nat) :
    jsSpliceRemovedOne l (k : Int) = (l.drop k).take 1 := by
  have hnn : ¬ ((k : Int) < 0) := by omega
  simp [jsSpliceRemovedOne, hnn]

end GenericTree

/-- C10.  Return shape of `Tree.remove`: a root match returns the removed
root node itself, while a match found below the root — the case where
`#getParentOf` returns a parent — returns the ARRAY produced by `splice`,
a one-element list containing the removed child; the two success shapes
differ. -/
theorem c10_tree_remove_return_shape (root : GenericTree.TNode) (v : Int) :
    (root.value = v →
      GenericTree.treeRemove (some root) v = .nodeResult root) ∧
    (∀ p, GenericTree.getParentOf root v = some p →
      ∃ c, c.value = v ∧ c ∈ p.children ∧
        GenericTree.treeRemove (some root) v = .listResult [c]) := by
  constructor
  · intro h
    simp [GenericTree.treeRemove, h]
  · intro p hp
    have hroot : ¬ root.value = v := by
      intro h
      rw [GenericTree.getParentOf, if_pos h] at hp
      exact Option.noConfusion hp
    have hany := GenericTree.bfsParentFuel_children_match _ _ _
      (by rw [GenericTree.getParentOf, if_neg hroot] at hp; exact hp)
    obtain ⟨k, c, hk, hdrop, hc, hmem⟩ :=
      GenericTree.jsFindIndex_of_any p.children hany
    refine ⟨c, ?_, hmem, ?_⟩
    · simpa using hc
    · rw [GenericTree.treeRemove, if_neg hroot, hp]
      show GenericTree.RemoveResult.listResult
        (GenericTree.jsSpliceRemovedOne p.children
          (GenericTree.jsFindIndex (fun c => c.value == v) p.children)) = _
      rw [hk, GenericTree.jsSpliceRemovedOne_natCast, hdrop]

/-- Witness for C10 at concrete inputs: removing the root value 3 from the
singleton tree returns the node itself; removing 5 from the tree with root
3 and children 7, 5, 1 returns a one-element array holding the child 5. -/
theorem c10_tree_remove_return_shape_witness :
    (GenericTree.treeRemove (some (.mk 3 [])) 3 = .nodeResult (.mk 3 [])) ∧
    (∃ c, GenericTree.TNode.value c = 5 ∧
      c ∈ GenericTree.TNode.children
        (.mk 3 [.mk 7 [], .mk 5 [], .mk 1 []]) ∧
      GenericTree.treeRemove
        (some (.mk 3 [.mk 7 [], .mk 5 [], .mk 1 []])) 5 = .listResult [c]) :=
  ⟨(c10_tree_remove_return_shape (.mk 3 []) 3).1 rfl,
   (c10_tree_remove_return_shape (.mk 3 [.mk 7 [], .mk 5 [], .mk 1 []]) 5).2
     (.mk 3 [.mk 7 [], .mk 5 [], .mk 1 []]) rfl⟩

namespace DoublyLinkedList

/-- Reading the written slot after a `set` in range. -/
theorem getD_set_self (l : List DLLNode) (i : Nat) (x : DLLNode)
    (h : i < l.length) : (l.set i x).getD i default = x := by
  simp [List.getD_eq_getElem?_getD, List.getElem?_set_self',
    List.getElem?_eq_getElem h]

/-- Reading another slot after a `set`. -/
theorem getD_set_ne (l : List DLLNode) (i j : Nat) (x : DLLNode)
    (h : i ≠ j) : (l.set i x).getD j default = l.getD j default := by
  simp [List.getD_eq_getElem?_getD, List.getElem?_set_ne h]

/-- Reading an old slot after an append. -/
theorem getD_append_left (l l2 : List DLLNode) (i : Nat)
    (h : i < l.length) : (l ++ l2).getD i default = l.getD i default := by
  simp [List.getD_eq_getElem?_getD, List.getElem?_append_left h]

/-- Reading the appended slot. -/
theorem getD_append_length (l : List DLLNode) (x : DLLNode) :
    (l ++ [x]).getD l.length default = x := by
  simp [List.getD_eq_getElem?_getD]

/-- A duplicate-free list of ids all below `n` has at most `n` entries. -/
theorem nodup_length_le (c : List Nat) (n : Nat) (h1 : c.Nodup)
    (h2 : ∀ i ∈ c, i < n) : c.length ≤ n := by
  classical
  have hsub : c.toFinset ⊆ Finset.range n := by
    intro i hi
    simp only [List.mem_toFinset] at hi
    exact Finset.mem_range.mpr (h2 i hi)
  have := Finset.card_le_card hsub
  rwa [List.toFinset_card_of_nodup h1, Finset.card_range] at this

/-- The expected-next pointer of a final empty segment is the closing
pointer; with a `none` closing pointer it is the head of the remainder. -/
theorem nextOf_none_head? (l : List Nat) : nextOf l none = l.head? := by
  cases l <;> rfl

/-- Composing expected-next pointers across an append. -/
theorem nextOf_append (l1 l2 : List Nat) (q : Option Nat) :
    nextOf (l1 ++ l2) q = nextOf l1 (nextOf l2 q) := by
  cases l1 <;> rfl

/-- The end pointer of an empty segment. -/
theorem endPtr_nil (p : Option Nat) : endPtr p [] = p := rfl

/-- The end pointer ignores the initial pointer once the segment is
non-empty from the front. -/
theorem endPtr_cons (p : Option Nat) (a : Nat) (l : List Nat) :
    endPtr p (a :: l) = endPtr (some a) l := by
  cases l with
  | nil => rfl
  | cons b t =>
    unfold endPtr
    rw [List.getLast?_cons_cons]
    cases h : (b :: t).getLast? with
    | none => exact absurd h (by simp)
    | some j => rfl

/-- The end pointer of a segment closed by an append. -/
theorem endPtr_concat (p : Option Nat) (l : List Nat) (i : Nat) :
    endPtr p (l ++ [i]) = some i := by
  simp [endPtr, List.getLast?_concat]

/-- With a `none` initial pointer, the end pointer is the last id. -/
theorem endPtr_none (l : List Nat) : endPtr none l = l.getLast? := by
  unfold endPtr
  cases l.getLast? <;> rfl

/-- The backward walk from null is empty. -/
theorem backwardIdsFrom_none (nodes : List DLLNode) (fuel : Nat) :
    backwardIdsFrom nodes fuel none = [] := by
  cases fuel <;> rfl

/-- Head of an append with a non-empty front. -/
theorem head?_append_of_ne_nil (c1 c2 : List Nat) (h : c1 ≠ []) :
    (c1 ++ c2).head? = c1.head? := by
  cases c1 with
  | nil => exact absurd rfl h
  | cons a t => rfl

/-- Every id of a valid segment is in range. -/
theorem seg_mem_lt (nodes : List DLLNode) :
    ∀ (l : List Nat) (p q : Option Nat), seg nodes p l q →
      ∀ i ∈ l, i < nodes.length := by
  intro l
  induction l with
  | nil => intro p q _ i hi; simp at hi
  | cons a t ih =>
    intro p q h i hi
    obtain ⟨ha, _, _, ht⟩ := h
    rcases List.mem_cons.mp hi with rfl | hi
    · exact ha
    · exact ih _ _ ht i hi

/-- Unfolding of a valid segment at its first id. -/
theorem seg_cons (nodes : List DLLNode) (p q : Option Nat) (a : Nat)
    (t : List Nat) :
    seg nodes p (a :: t) q ↔
      a < nodes.length ∧ (nodes.getD a default).prev = p ∧
        (nodes.getD a default).next = nextOf t q ∧ seg nodes (some a) t q :=
  Iff.rfl

/-- Splitting a valid segment across an append: the front is a segment
closed by the expected-next pointer of the back, and the back is a
segment opened by the end pointer of the front. -/
theorem seg_append (nodes : List DLLNode) :
    ∀ (l1 l2 : List Nat) (p q : Option Nat),
      seg nodes p (l1 ++ l2) q ↔
        seg nodes p l1 (nextOf l2 q) ∧ seg nodes (endPtr p l1) l2 q := by
  intro l1
  induction l1 with
  | nil => intro l2 p q; simp [seg, endPtr_nil]
  | cons a t ih =>
    intro l2 p q
    simp only [List.cons_append, seg_cons, nextOf_append, endPtr_cons,
      List.append_eq, ih]
    tauto

/-- A segment is insensitive to changes of the arena outside its ids (the
arena may also grow). -/
theorem seg_transfer (nodes nodes' : List DLLNode)
    (hlen : nodes.length ≤ nodes'.length) :
    ∀ (l : List Nat) (p q : Option Nat), seg nodes p l q →
      (∀ i ∈ l, nodes'.getD i default = nodes.getD i default) →
      seg nodes' p l q := by
  intro l
  induction l with
  | nil => intro p q _ _; trivial
  | cons a t ih =>
    intro p q h hsame
    obtain ⟨ha, hp, hn, ht⟩ := h
    refine ⟨lt_of_lt_of_le ha hlen, ?_, ?_, ih _ _ ht ?_⟩
    · rw [hsame a (by simp)]; exact hp
    · rw [hsame a (by simp)]; exact hn
    · intro i hi; exact hsame i (by simp [hi])

end DoublyLinkedList

namespace DoublyLinkedList

/-- The forward walk along a valid chain closed by null reproduces the
chain, given enough fuel. -/
theorem forwardIdsFrom_of_seg (nodes : List DLLNode) :
    ∀ (l : List Nat) (p : Option Nat) (fuel : Nat), seg nodes p l none →
      l.length ≤ fuel → forwardIdsFrom nodes fuel l.head? = l := by
  intro l
  induction l with
  | nil =>
    intro p fuel _ _
    cases fuel <;> rfl
  | cons a t ih =>
    intro p fuel hs hf
    obtain ⟨h1, h2, h3, h4⟩ := (seg_cons nodes p none a t).mp hs
    obtain ⟨f, rfl⟩ : ∃ f, fuel = f + 1 :=
      ⟨fuel - 1, by simp at hf; omega⟩
    show a :: forwardIdsFrom nodes f (nodes.getD a default).next = a :: t
    rw [h3, nextOf_none_head?, ih (some a) f h4 (by simp at hf; omega)]

/-- The backward walk from the end of a valid segment reproduces the
reversed segment and then continues from the segment's initial pointer. -/
theorem backwardIdsFrom_of_seg (nodes : List DLLNode) :
    ∀ (l : List Nat) (p q : Option Nat) (fuel : Nat), seg nodes p l q →
      l.length ≤ fuel →
      backwardIdsFrom nodes fuel (endPtr p l) =
        l.reverse ++ backwardIdsFrom nodes (fuel - l.length) p := by
  intro l
  induction l using List.reverseRecOn with
  | nil =>
    intro p q fuel _ _
    simp [endPtr_nil]
  | append_singleton t i ih =>
    intro p q fuel hs hf
    obtain ⟨hfront, hback⟩ := (seg_append nodes t [i] p q).mp hs
    obtain ⟨hi, hiprev, _, _⟩ := (seg_cons nodes _ q i []).mp hback
    obtain ⟨f, rfl⟩ : ∃ f, fuel = f + 1 :=
      ⟨fuel - 1, by simp at hf; omega⟩
    rw [endPtr_concat]
    show i :: backwardIdsFrom nodes f (nodes.getD i default).prev = _
    rw [hiprev, ih p (some i) f hfront (by simp at hf; omega)]
    have hflen : f + 1 - (t ++ [i]).length = f - t.length := by
      simp only [List.length_append, List.length_singleton]
      omega
    rw [hflen]
    simp

/-- A successful `get` walk along a valid null-closed chain lands on an id
of the chain. -/
theorem getFrom_mem (nodes : List DLLNode) (v : Int) :
    ∀ (l : List Nat) (p : Option Nat) (fuel : Nat) (j : Nat),
      seg nodes p l none → getFrom nodes v fuel l.head? = some j → j ∈ l := by
  intro l
  induction l with
  | nil =>
    intro p fuel j _ hg
    cases fuel <;> simp [getFrom] at hg
  | cons a t ih =>
    intro p fuel j hs hg
    obtain ⟨h1, h2, h3, h4⟩ := (seg_cons nodes p none a t).mp hs
    cases fuel with
    | zero => simp [getFrom] at hg
    | succ f =>
      rw [show (a :: t).head? = some a from rfl, getFrom] at hg
      by_cases hv : (nodes.getD a default).value = v
      · rw [if_pos hv] at hg
        cases hg
        exact List.mem_cons_self a t
      · rw [if_neg hv, h3, nextOf_none_head?] at hg
        exact List.mem_cons_of_mem a (ih (some a) f j h4 hg)

/-- A list state satisfying the representation invariant satisfies the
claimed symmetry: the forward value walk, reversed, is the backward value
walk from the last node the forward walk reaches. -/
theorem symmetry_of_inv (s : DLL) (h : Inv s) :
    (forwardValues s).reverse = backwardValues s := by
  obtain ⟨c, hnd, hh, hseg⟩ := h
  have hb : ∀ i ∈ c, i < s.nodes.length := seg_mem_lt s.nodes c none none hseg
  have hlen : c.length ≤ s.nodes.length := nodup_length_le c _ hnd hb
  have hfwd : forwardIds s = c := by
    unfold forwardIds
    rw [hh]
    exact forwardIdsFrom_of_seg s.nodes c none s.nodes.length hseg hlen
  have hbwd : backwardIdsFrom s.nodes s.nodes.length c.getLast? = c.reverse := by
    rw [← endPtr_none,
      backwardIdsFrom_of_seg s.nodes c none none s.nodes.length hseg hlen,
      backwardIdsFrom_none, List.append_nil]
  unfold forwardValues backwardValues
  rw [hfwd, hbwd, List.map_reverse]

end DoublyLinkedList

namespace DoublyLinkedList

/-- Removing from an empty list leaves it unchanged. -/
theorem remove_eq_empty (s : DLL) (v : Int) (hh : s.head = none) :
    remove s v = (s, false) := by
  unfold remove
  rw [hh]

/-- Removing an absent value leaves the list unchanged. -/
theorem remove_eq_notfound (s : DLL) (v : Int) (hd : Nat)
    (hh : s.head = some hd) (hg : get s v = none) :
    remove s v = (s, false) := by
  unfold remove
  rw [hh, hg]

/-- Removing the head of a one-node chain: the head becomes null and the
TypeError fires. -/
theorem remove_eq_head_last (s : DLL) (v : Int) (hd : Nat)
    (hh : s.head = some hd) (hg : get s v = some hd)
    (hn : (nodeAt s hd).next = none) :
    remove s v = (⟨s.nodes, none⟩, true) := by
  unfold remove
  rw [hh, hg]
  show (if hd = hd then _ else _) = _
  rw [if_pos rfl, hn]

/-- Removing the head when a successor exists: the successor becomes the
head and its back reference is cleared. -/
theorem remove_eq_head_cons (s : DLL) (v : Int) (hd h2 : Nat)
    (hh : s.head = some hd) (hg : get s v = some hd)
    (hn : (nodeAt s hd).next = some h2) :
    remove s v =
      (⟨s.nodes.set h2 { nodeAt s h2 with prev := none }, some h2⟩, false) := by
  unfold remove
  rw [hh, hg]
  show (if hd = hd then _ else _) = _
  rw [if_pos rfl, hn]

/-- Removing a non-head node with no successor: the predecessor's forward
reference is cleared. -/
theorem remove_eq_tail (s : DLL) (v : Int) (hd nid p0 : Nat)
    (hh : s.head = some hd) (hg : get s v = some nid) (hne : nid ≠ hd)
    (hn : (nodeAt s nid).next = none) (hp : (nodeAt s nid).prev = some p0) :
    remove s v =
      (⟨s.nodes.set p0 { nodeAt s p0 with next := none }, s.head⟩, false) := by
  unfold remove
  rw [hh, hg]
  show (if nid = hd then _ else _) = _
  rw [if_neg hne, if_pos hn, hp]

/-- Removing a non-head node with both neighbours: the predecessor and
the successor are linked to each other. -/
theorem remove_eq_middle (s : DLL) (v : Int) (hd nid p0 sc : Nat)
    (hh : s.head = some hd) (hg : get s v = some nid) (hne : nid ≠ hd)
    (hn : (nodeAt s nid).next = some sc) (hp : (nodeAt s nid).prev = some p0) :
    remove s v =
      (⟨(s.nodes.set p0 { nodeAt s p0 with next := some sc }).set sc
          { (s.nodes.set p0 { nodeAt s p0 with next := some sc }).getD sc
              default with prev := some p0 }, s.head⟩, false) := by
  unfold remove
  rw [hh, hg]
  show (if nid = hd then _ else _) = _
  have hnn : ¬ (nodeAt s nid).next = none := by rw [hn]; simp
  rw [if_neg hne, if_neg hnn, hp, hn]

/-- Removing a non-head node whose back reference is null (impossible on
reachable states): the TypeError fires before any mutation. -/
theorem remove_eq_no_pred (s : DLL) (v : Int) (hd nid : Nat)
    (hh : s.head = some hd) (hg : get s v = some nid) (hne : nid ≠ hd)
    (hp : (nodeAt s nid).prev = none) :
    remove s v = (s, true) := by
  unfold remove
  rw [hh, hg]
  show (if nid = hd then _ else _) = _
  cases hn : (nodeAt s nid).next with
  | none =>
    rw [if_neg hne, if_pos rfl, hp]
  | some sc =>
    rw [if_neg hne, if_neg (by simp : ¬ (some sc = none)), hp]

end DoublyLinkedList

namespace DoublyLinkedList

/-- Unfolding of the arena read. -/
theorem nodeAt_eq (s : DLL) (i : Nat) :
    nodeAt s i = s.nodes.getD i default := rfl

/-- The constructor's state satisfies the representation invariant. -/
theorem inv_empty : Inv emptyList := ⟨[], List.nodup_nil, rfl, trivial⟩

/-- The `insert` method preserves the representation invariant. -/
theorem inv_insert (s : DLL) (v : Int) (h : Inv s) : Inv (insert s v) := by
  obtain ⟨c, hnd, hh, hseg⟩ := h
  have hb : ∀ i ∈ c, i < s.nodes.length := seg_mem_lt s.nodes c none none hseg
  unfold insert
  cases hhd : s.head with
  | none =>
    refine ⟨[s.nodes.length], List.nodup_singleton _, rfl, ?_⟩
    refine (seg_cons _ _ _ _ _).mpr ⟨?_, ?_, ?_, trivial⟩
    · simp
    · rw [getD_append_length]
    · rw [getD_append_length]; rfl
  | some hd =>
    have hch : c.head? = some hd := by rw [← hh, hhd]
    obtain ⟨c', rfl⟩ : ∃ c', c = hd :: c' := by
      cases c with
      | nil => simp at hch
      | cons a t =>
        simp only [List.head?_cons, Option.some.injEq] at hch
        exact ⟨t, by rw [hch]⟩
    have hhdlt : hd < s.nodes.length := hb hd (List.mem_cons_self hd c')
    obtain ⟨-, -, hhdnext, hsegc'⟩ := (seg_cons _ _ _ _ _).mp hseg
    have hnotin : s.nodes.length ∉ hd :: c' := by
      intro hmem
      exact absurd (hb _ hmem) (lt_irrefl _)
    refine ⟨s.nodes.length :: hd :: c', List.nodup_cons.mpr ⟨hnotin, hnd⟩,
      rfl, ?_⟩
    have hlen1 : hd < (s.nodes ++ [(⟨v, none, some hd⟩ : DLLNode)]).length := by
      simp
      omega
    refine (seg_cons _ _ _ _ _).mpr ⟨?_, ?_, ?_, ?_⟩
    · simp [List.length_set]
    · rw [getD_set_ne _ _ _ _ (Nat.ne_of_lt hhdlt), getD_append_length]
    · rw [getD_set_ne _ _ _ _ (Nat.ne_of_lt hhdlt), getD_append_length]; rfl
    · refine (seg_cons _ _ _ _ _).mpr ⟨?_, ?_, ?_, ?_⟩
      · simp [List.length_set]
        omega
      · rw [getD_set_self _ _ _ hlen1]
      · rw [getD_set_self _ _ _ hlen1]
        show ((s.nodes ++ [(⟨v, none, some hd⟩ : DLLNode)]).getD hd default).next = _
        rw [getD_append_left _ _ _ hhdlt]
        exact hhdnext
      · have hnodup_tail : hd ∉ c' := (List.nodup_cons.mp hnd).1
        refine seg_transfer s.nodes _ ?_ c' (some hd) none hsegc' ?_
        · simp [List.length_set]
        · intro i hi
          have hilt : i < s.nodes.length := hb i (List.mem_cons_of_mem hd hi)
          have hine : hd ≠ i := fun hcontra => hnodup_tail (hcontra ▸ hi)
          rw [getD_set_ne _ _ _ _ hine, getD_append_left _ _ _ hilt]

end DoublyLinkedList

namespace DoublyLinkedList

/-- The `remove` method preserves the representation invariant — also in
the branch that throws, whose state survives the exception. -/
theorem inv_remove (s : DLL) (v : Int) (h : Inv s) : Inv (remove s v).1 := by
  obtain ⟨c, hnd, hh, hseg⟩ := h
  cases hhd : s.head with
  | none =>
    rw [remove_eq_empty s v hhd]
    exact ⟨c, hnd, hh, hseg⟩
  | some hd =>
    cases hget : get s v with
    | none =>
      rw [remove_eq_notfound s v hd hhd hget]
      exact ⟨c, hnd, hh, hseg⟩
    | some nid =>
      have hb : ∀ i ∈ c, i < s.nodes.length :=
        seg_mem_lt s.nodes c none none hseg
      have hch : c.head? = some hd := by rw [← hh, hhd]
      have hmem : nid ∈ c := by
        refine getFrom_mem s.nodes v c none s.nodes.length nid hseg ?_
        unfold get at hget
        rw [hh] at hget
        exact hget
      obtain ⟨c1, c2, rfl⟩ := List.append_of_mem hmem
      obtain ⟨hseg1, hseg2⟩ :=
        (seg_append s.nodes c1 (nid :: c2) none none).mp hseg
      obtain ⟨hnidlt, hprev, hnext, hsegc2⟩ := (seg_cons _ _ _ _ _).mp hseg2
      by_cases heq : nid = hd
      · subst heq
        have hc1 : c1 = [] := by
          cases hc1e : c1 with
          | nil => rfl
          | cons a t =>
            exfalso
            subst hc1e
            simp only [List.cons_append, List.head?_cons,
              Option.some.injEq] at hch
            subst hch
            have hin : a ∈ t ++ a :: c2 := by simp
            exact (List.nodup_cons.mp hnd).1 hin
        subst hc1
        cases c2 with
        | nil =>
          rw [remove_eq_head_last s v nid hhd hget
            (by rw [nodeAt_eq, hnext]; rfl)]
          exact ⟨[], List.nodup_nil, rfl, trivial⟩
        | cons h2 c2' =>
          rw [remove_eq_head_cons s v nid h2 hhd hget
            (by rw [nodeAt_eq, hnext]; rfl)]
          obtain ⟨hh2lt, hh2prev, hh2next, hsegc2'⟩ :=
            (seg_cons _ _ _ _ _).mp hsegc2
          simp only [List.nil_append] at hnd
          have hndtail : (h2 :: c2').Nodup := (List.nodup_cons.mp hnd).2
          refine ⟨h2 :: c2', hndtail, rfl, ?_⟩
          refine (seg_cons _ _ _ _ _).mpr ⟨?_, ?_, ?_, ?_⟩
          · simpa [List.length_set] using hh2lt
          · rw [getD_set_self _ _ _ hh2lt]
          · rw [getD_set_self _ _ _ hh2lt]
            show (nodeAt s h2).next = _
            rw [nodeAt_eq]
            exact hh2next
          · have hh2notin : h2 ∉ c2' := (List.nodup_cons.mp hndtail).1
            refine seg_transfer s.nodes _ (by simp [List.length_set])
              c2' (some h2) none hsegc2' ?_
            intro i hi
            exact getD_set_ne _ _ _ _ (fun hc => hh2notin (hc ▸ hi))
      · have hc1ne : c1 ≠ [] := by
          intro h0
          subst h0
          simp only [List.nil_append, List.head?_cons,
            Option.some.injEq] at hch
          exact heq hch
        obtain ⟨c1', p0, hc1e⟩ := (List.eq_nil_or_concat c1).resolve_left hc1ne
        rw [List.concat_eq_append] at hc1e
        subst hc1e
        have hprev' : (nodeAt s nid).prev = some p0 := by
          rw [nodeAt_eq, hprev, endPtr_concat]
        obtain ⟨hseg1a, hseg1b⟩ :=
          (seg_append s.nodes c1' [p0] none (some nid)).mp hseg1
        obtain ⟨hp0lt, hp0prev, hp0next, -⟩ := (seg_cons _ _ _ _ _).mp hseg1b
        obtain ⟨hnd1, hnd2, hdisj⟩ := List.nodup_append.mp hnd
        have hp0ne : ∀ i ∈ c1', i ≠ p0 := by
          intro i hi he
          obtain ⟨-, -, hdisj1⟩ := List.nodup_append.mp hnd1
          exact hdisj1 hi (by simp [he])
        cases c2 with
        | nil =>
          rw [remove_eq_tail s v hd nid p0 hhd hget heq
            (by rw [nodeAt_eq, hnext]; rfl) hprev']
          refine ⟨c1' ++ [p0], hnd1, ?_, ?_⟩
          · show s.head = _
            rw [hh]
            exact head?_append_of_ne_nil _ _ (by simp)
          · refine (seg_append _ c1' [p0] none none).mpr ⟨?_, ?_⟩
            · have hseg1a' : seg s.nodes none c1' (some p0) := hseg1a
              refine seg_transfer s.nodes _ (by simp [List.length_set])
                c1' none _ hseg1a' ?_
              intro i hi
              exact getD_set_ne _ _ _ _ (fun hc => hp0ne i hi hc.symm)
            · refine (seg_cons _ _ _ _ _).mpr ⟨?_, ?_, ?_, trivial⟩
              · simpa [List.length_set] using hp0lt
              · rw [getD_set_self _ _ _ hp0lt]
                show (nodeAt s p0).prev = _
                rw [nodeAt_eq]
                exact hp0prev
              · rw [getD_set_self _ _ _ hp0lt]
                rfl
        | cons sc c2' =>
          rw [remove_eq_middle s v hd nid p0 sc hhd hget heq
            (by rw [nodeAt_eq, hnext]; rfl) hprev']
          obtain ⟨hsclt, hscprev, hscnext, hsegc2'⟩ :=
            (seg_cons _ _ _ _ _).mp hsegc2
          have hp0sc : p0 ≠ sc := by
            intro he
            exact hdisj (show p0 ∈ c1' ++ [p0] by simp)
              (show p0 ∈ nid :: sc :: c2' by rw [he]; simp)
          have hc1sc : ∀ i ∈ c1', i ≠ sc := by
            intro i hi he
            exact hdisj (show i ∈ c1' ++ [p0] by simp [hi])
              (show i ∈ nid :: sc :: c2' by rw [he]; simp)
          have hscnotin : sc ∉ c2' :=
            (List.nodup_cons.mp (List.nodup_cons.mp hnd2).2).1
          have hp0notin2 : ∀ i ∈ c2', i ≠ p0 := by
            intro i hi he
            rw [he] at hi
            exact hdisj (show p0 ∈ c1' ++ [p0] by simp)
              (show p0 ∈ nid :: sc :: c2' by simp [hi])
          have hscne2 : ∀ i ∈ c2', i ≠ sc :=
            fun i hi he => hscnotin (he ▸ hi)
          refine ⟨(c1' ++ [p0]) ++ sc :: c2', ?_, ?_, ?_⟩
          · refine hnd.sublist ?_
            exact (List.sublist_cons_self nid (sc :: c2')).append_left _
          · show s.head = _
            rw [hh,
              head?_append_of_ne_nil (c1' ++ [p0]) (nid :: sc :: c2') (by simp),
              head?_append_of_ne_nil (c1' ++ [p0]) (sc :: c2') (by simp)]
          · have hlen1 :
                (s.nodes.set p0 { nodeAt s p0 with next := some sc }).length =
                  s.nodes.length := by
              simp [List.length_set]
            refine (seg_append _ (c1' ++ [p0]) (sc :: c2') none none).mpr
              ⟨?_, ?_⟩
            · refine (seg_append _ c1' [p0] none _).mpr ⟨?_, ?_⟩
              · have hseg1a' : seg s.nodes none c1' (some p0) := hseg1a
                refine seg_transfer s.nodes _
                  (by simp [List.length_set]) c1' none _ hseg1a' ?_
                intro i hi
                rw [getD_set_ne _ _ _ _ (fun hc => hc1sc i hi hc.symm),
                  getD_set_ne _ _ _ _ (fun hc => hp0ne i hi hc.symm)]
              · refine (seg_cons _ _ _ _ _).mpr ⟨?_, ?_, ?_, trivial⟩
                · simp only [List.length_set]
                  exact hp0lt
                · rw [getD_set_ne _ _ _ _ (Ne.symm hp0sc),
                    getD_set_self _ _ _ hp0lt]
                  show (nodeAt s p0).prev = _
                  rw [nodeAt_eq]
                  exact hp0prev
                · rw [getD_set_ne _ _ _ _ (Ne.symm hp0sc),
                    getD_set_self _ _ _ hp0lt]
                  rfl
            · rw [endPtr_concat]
              refine (seg_cons _ _ _ _ _).mpr ⟨?_, ?_, ?_, ?_⟩
              · simp only [List.length_set]
                exact hsclt
              · rw [getD_set_self _ _ _ (by rw [hlen1]; exact hsclt)]
              · rw [getD_set_self _ _ _ (by rw [hlen1]; exact hsclt)]
                show ((s.nodes.set p0
                  { nodeAt s p0 with next := some sc }).getD sc default).next = _
                rw [getD_set_ne _ _ _ _ hp0sc]
                exact hscnext
              · refine seg_transfer s.nodes _
                  (by simp [List.length_set]) c2' (some sc) none hsegc2' ?_
                intro i hi
                rw [getD_set_ne _ _ _ _ (fun hc => hscne2 i hi hc.symm),
                  getD_set_ne _ _ _ _ (fun hc => hp0notin2 i hi hc.symm)]

end DoublyLinkedList

namespace DoublyLinkedList

/-- Every state reachable by `insert`/`remove` sequences satisfies the
representation invariant. -/
theorem inv_of_reachable {s : DLL} (h : Reachable s) : Inv s := by
  induction h with
  | empty => exact inv_empty
  | insert v hr ih => exact inv_insert _ v ih
  | remove v hr ih => exact inv_remove _ v ih

end DoublyLinkedList

/-- C9.  Doubly-linked symmetry invariant: for every state reachable by a
sequence of `insert` and `remove` operations from the empty list (the
state a throwing `remove` leaves behind included), the sequence of values
obtained by walking forward from the head via `next`, reversed, equals
the sequence obtained by walking backward via `prev` from the last node
the forward walk reaches. -/
theorem c9_forward_backward_symmetry (s : DoublyLinkedList.DLL)
    (h : DoublyLinkedList.Reachable s) :
    (DoublyLinkedList.forwardValues s).reverse =
      DoublyLinkedList.backwardValues s :=
  DoublyLinkedList.symmetry_of_inv s (DoublyLinkedList.inv_of_reachable h)

/-- Witness for C9 at a concrete reachable state: insert 1, insert 2,
insert 3, then remove 2 (a middle-node removal). -/
theorem c9_forward_backward_symmetry_witness :
    (DoublyLinkedList.forwardValues
      (DoublyLinkedList.remove
        (DoublyLinkedList.insert
          (DoublyLinkedList.insert
            (DoublyLinkedList.insert DoublyLinkedList.emptyList 1) 2) 3)
        2).1).reverse =
    DoublyLinkedList.backwardValues
      (DoublyLinkedList.remove
        (DoublyLinkedList.insert
          (DoublyLinkedList.insert
            (DoublyLinkedList.insert DoublyLinkedList.emptyList 1) 2) 3)
        2).1 :=
  c9_forward_backward_symmetry _
    (DoublyLinkedList.Reachable.remove 2
      (DoublyLinkedList.Reachable.insert 3
        (DoublyLinkedList.Reachable.insert 2
          (DoublyLinkedList.Reachable.insert 1
            DoublyLinkedList.Reachable.empty))))
